import Mathlib

/-!
Verification development for a Rust disk-usage / duplicate-file tool.

The program builds an in-memory index of a filesystem subtree
(`FileTree` in `src/file_tree.rs`), keyed by paths, and offers
read-only queries (`get_root`, `get_children`, `get_size`,
`get_map_option`, `files`), a duplicate grouper (`find_duplicates`),
per-file content signatures (`calculate_signature`), and rendering
traversals (`src/print_tree.rs`).

Modelling conventions:
* A filesystem path (`PathBuf`) is a list of components, `List String`;
  `PathBuf`'s derived ordering is componentwise, matching list
  lexicographic order on components.
* Rust `HashMap` is modelled as an association list with
  first-match lookup; the builder and grouper only ever create maps
  with pairwise-distinct keys, and the claims that need it take
  key-distinctness as a hypothesis.
* `u64` byte counts are modelled as `Nat`.
* Unbounded recursions that walk the finite index (`get_size` and the
  printing traversals) are modelled with explicit fuel; the canonical
  fuel is `index length + 1`, and fuel-independence is proved for
  acyclic indices (every index built from a real filesystem walk).
-/

/-- A filesystem path, as its list of components (models `PathBuf`). -/
abbrev FPath := List String

/-- First-match lookup in an association list (models `HashMap::get`). -/
def lookupA {α β : Type} [DecidableEq α] : List (α × β) → α → Option β
  | [], _ => none
  | (k, v) :: rest, a => if a = k then some v else lookupA rest a

/-- Replace-or-append insertion (models `HashMap::insert`). -/
def insertA {α β : Type} [DecidableEq α] : List (α × β) → α → β → List (α × β)
  | [], k, v => [(k, v)]
  | (k', v') :: rest, k, v =>
    if k' = k then (k, v) :: rest else (k', v') :: insertA rest k v

/-- The keys of an association list. -/
def keysA {α β : Type} (l : List (α × β)) : List α := l.map Prod.fst

/-- An association list with pairwise-distinct keys (what a `HashMap` holds). -/
def NoDupKeys {α β : Type} (l : List (α × β)) : Prop := (keysA l).Nodup

instance {α β : Type} [DecidableEq α] (l : List (α × β)) : Decidable (NoDupKeys l) := by
  unfold NoDupKeys; infer_instance

/-- `EntryNode` from `src/file_tree.rs`: a file with its byte size, or a
directory with its ordered list of child paths. -/
inductive EntryNode : Type where
  | File (size : Nat)
  | Directory (children : List FPath)
  deriving DecidableEq, Repr

/-- `FileTree` from `src/file_tree.rs`: the root path, the path-keyed entry
index (`map`), and the path-keyed signature table (`signature`, hex strings
modelled as `List Char`). -/
structure FileTree : Type where
  root : FPath
  map : List (FPath × EntryNode)
  signature : List (FPath × List Char)
  deriving DecidableEq, Repr

/-- `true` exactly on `some (File _)` entries. -/
def isFileOpt : Option EntryNode → Bool
  | some (.File _) => true
  | _ => false

/-- `true` exactly on `some (Directory _)` entries. -/
def isDirOpt : Option EntryNode → Bool
  | some (.Directory _) => true
  | _ => false

/-- The children stored in an entry (empty for a file). -/
def childrenOf : EntryNode → List FPath
  | .File _ => []
  | .Directory cs => cs

/-- Fuel-indexed body of `FileTree::get_size`: a file yields its stored size;
a directory yields the sum over children of the recursively computed sizes,
children whose size is absent being skipped (`filter_map` in the source);
an unknown path yields `none`.  Fuel `0` (never reached on an acyclic index
with adequate fuel) yields `none`. -/
def getSizeF (m : List (FPath × EntryNode)) : Nat → FPath → Option Nat
  | 0, _ => none
  | fuel + 1, p =>
    match lookupA m p with
    | none => none
    | some (.File s) => some s
    | some (.Directory cs) =>
        some ((cs.filterMap (fun c => getSizeF m fuel c)).sum)

/-- `get_size` on an index, at the canonical fuel `length + 1`. -/
def getSizeTop (m : List (FPath × EntryNode)) (p : FPath) : Option Nat :=
  getSizeF m (m.length + 1) p

/-- `FileTree::get_size`. -/
def FileTree.get_size (t : FileTree) (p : FPath) : Option Nat :=
  getSizeTop t.map p

/-- `FileTree::get_root`. -/
def FileTree.get_root (t : FileTree) : FPath := t.root

/-- `FileTree::get_children`: the children list when the entry is a
directory, `none` otherwise.  (The source also prints the children to
stdout, a side effect outside the returned value.) -/
def FileTree.get_children (t : FileTree) (p : FPath) : Option (List FPath) :=
  match lookupA t.map p with
  | some (.Directory cs) => some cs
  | _ => none

/-- `FileTree::get_map_option`: raw entry lookup. -/
def FileTree.get_map_option (t : FileTree) (p : FPath) : Option EntryNode :=
  lookupA t.map p

/-- `FileTree::files`: the paths whose entry is a `File`, in index order. -/
def FileTree.files (t : FileTree) : List FPath :=
  t.map.filterMap (fun kv => match kv.2 with
    | .File _ => some kv.1
    | .Directory _ => none)

/-! ## Signature computation (`FileTree::calculate_signature`) -/

/-- Lowercase hex digit for a nibble (`hex::encode` alphabet). -/
def hexDigitChar (n : Nat) : Char :=
  if n < 10 then Char.ofNat (48 + n) else Char.ofNat (87 + n)

/-- `hex::encode`: each byte becomes two lowercase hex characters. -/
def hexEncode (bs : List Nat) : List Char :=
  bs.flatMap (fun b => [hexDigitChar (b / 16 % 16), hexDigitChar (b % 16)])

/-- Fuel-indexed chunked read loop of `calculate_signature`: split the file
content into successive chunks of at most 8192 bytes, mirroring
`file.read(&mut buffer)` on an 8192-byte buffer until it returns 0.
The canonical fuel `content.length` always suffices. -/
def readChunksF : Nat → List Nat → List (List Nat)
  | _, [] => []
  | 0, _ :: _ => []
  | fuel + 1, b :: rest => ((b :: rest).take 8192) :: readChunksF fuel ((b :: rest).drop 8192)

/-- The chunks fed to the hasher by the read loop. -/
def readChunks (content : List Nat) : List (List Nat) :=
  readChunksF content.length content

/-- `Md5::input`: the streaming hasher state is the byte sequence absorbed
so far; absorbing a chunk appends it. -/
def mdInput (state chunk : List Nat) : List Nat := state ++ chunk

/-- `FileTree::calculate_signature`, parametrised by the digest function
`md5hex : content bytes → bytes of the hex digest string`
(`hasher.result_str().as_bytes()`, from the external `crypto` crate):
feed the 8192-byte chunks of the file into the hasher, then hex-encode the
bytes of the resulting digest string (`hex::encode`), yielding the
double-encoded signature the source produces. -/
def calculate_signature (md5hex : List Nat → List Nat) (content : List Nat) : List Char :=
  hexEncode (md5hex ((readChunks content).foldl mdInput []))

/-! ## Duplicate grouper (`FileTree::find_duplicates`) -/

/-- One fold step of `find_duplicates`:
`acc.entry(signature).or_insert_with(Vec::new).push(path)` — append the path
at the end of the signature's group, creating the group if absent. -/
def entryPush : List (List Char × List FPath) → List Char → FPath → List (List Char × List FPath)
  | [], s, p => [(s, [p])]
  | (k, v) :: rest, s, p =>
    if k = s then (k, v ++ [p]) :: rest else (k, v) :: entryPush rest s p

/-- One merge step of the reduce:
`acc1.entry(key).or_insert_with(Vec::new).append(&mut value)` — append a
whole group at the end of the signature's group, creating it if absent. -/
def entryAppend : List (List Char × List FPath) → List Char → List FPath → List (List Char × List FPath)
  | [], s, v => [(s, v)]
  | (k, w) :: rest, s, v =>
    if k = s then (k, w ++ v) :: rest else (k, w) :: entryAppend rest s v

/-- A worker's local fold over its partition of `(path, signature)` pairs. -/
def foldPart (part : List (FPath × List Char)) : List (List Char × List FPath) :=
  part.foldl (fun acc ps => entryPush acc ps.2 ps.1) []

/-- The reduce step merging two worker-local maps: every group of the second
operand is appended to (or created in) the first. -/
def mergeMaps (acc1 acc2 : List (List Char × List FPath)) : List (List Char × List FPath) :=
  acc2.foldl (fun a kv => entryAppend a kv.1 kv.2) acc1

/-- Grouping a signature table and keeping only groups with more than one
member (the sequential reading of `find_duplicates`, i.e. a single
partition). -/
def dupGroups (sigs : List (FPath × List Char)) : List (List Char × List FPath) :=
  (foldPart sigs).filter (fun kv => 1 < kv.2.length)

/-- `FileTree::find_duplicates`. -/
def FileTree.find_duplicates (t : FileTree) : List (List Char × List FPath) :=
  dupGroups t.signature

/-- `find_duplicates` as executed on an arbitrary partitioning of the pairs
across workers: each partition is folded locally, the local maps are merged,
and singleton groups are dropped. -/
def parDuplicates (parts : List (List (FPath × List Char))) : List (List Char × List FPath) :=
  ((parts.map foldPart).foldl mergeMaps []).filter (fun kv => 1 < kv.2.length)

/-! ## Tree builder (`FileTree::new` / `FileTree::file_explorer`) -/

/-- The error kinds the build can surface (`std::io::Error` kinds used by the
source): the root path does not exist (`fs::metadata` fails with NotFound),
or an entry is neither a regular file nor a directory
("Type de fichier non pris en charge"). -/
inductive IOErr : Type where
  | pathNotFound
  | unsupported
  deriving DecidableEq, Repr

mutual
/-- A filesystem node as seen by the builder: a regular file with its
metadata length and byte content, a directory with its entries in
enumeration order (`fs::read_dir` order), or anything else (symlink,
device, socket, …). -/
inductive FsNode : Type where
  | file (size : Nat) (content : List Nat)
  | dir (entries : FsEntries)
  | other

/-- A directory's entry listing: each entry is a name and its node. -/
inductive FsEntries : Type where
  | nil
  | cons (name : String) (child : FsNode) (rest : FsEntries)
end

mutual
/-- `FileTree::file_explorer`: depth-first, fail-fast walk.  A file is
recorded in both maps together with its signature; a directory recurses into
its entries in enumeration order, the caller recording each child entry under
the child path; any other node kind aborts the whole build. -/
def file_explorer (md5hex : List Nat → List Nat) (path : FPath) (node : FsNode)
    (map : List (FPath × EntryNode)) (sigs : List (FPath × List Char)) :
    Except IOErr (EntryNode × List (FPath × EntryNode) × List (FPath × List Char)) :=
  match node with
  | .file sz content =>
      .ok (.File sz, insertA map path (.File sz),
           insertA sigs path (calculate_signature md5hex content))
  | .dir entries =>
      match explore_children md5hex path entries map sigs with
      | .error e => .error e
      | .ok (cs, m', s') => .ok (.Directory cs, m', s')
  | .other => .error .unsupported

/-- The `for entry in fs::read_dir(path)?` loop of `file_explorer`: explore
each child, record its entry node under its path, and accumulate the child
paths in enumeration order. -/
def explore_children (md5hex : List Nat → List Nat) (path : FPath) (entries : FsEntries)
    (map : List (FPath × EntryNode)) (sigs : List (FPath × List Char)) :
    Except IOErr (List FPath × List (FPath × EntryNode) × List (FPath × List Char)) :=
  match entries with
  | .nil => .ok ([], map, sigs)
  | .cons name child rest =>
      match file_explorer md5hex (path ++ [name]) child map sigs with
      | .error e => .error e
      | .ok (en, m1, s1) =>
          match explore_children md5hex path rest (insertA m1 (path ++ [name]) en) s1 with
          | .error e => .error e
          | .ok (cs, m2, s2) => .ok ((path ++ [name]) :: cs, m2, s2)
end

/-- `FileTree::new`: a nonexistent root (`none`) fails with the NotFound
error from `fs::metadata`; otherwise the walk runs and, on success, the root
entry is recorded under the root path. -/
def FileTree.new (md5hex : List Nat → List Nat) (root : FPath) (fsroot : Option FsNode) :
    Except IOErr FileTree :=
  match fsroot with
  | none => .error .pathNotFound
  | some node =>
      match file_explorer md5hex root node [] [] with
      | .error e => .error e
      | .ok (root_entry, m, s) => .ok ⟨root, insertA m root root_entry, s⟩

mutual
/-- Whether a node's subtree contains an entry that is neither a regular
file nor a directory. -/
def containsOther : FsNode → Bool
  | .file _ _ => false
  | .dir entries => containsOtherL entries
  | .other => true

/-- `containsOther` over a directory listing. -/
def containsOtherL : FsEntries → Bool
  | .nil => false
  | .cons _ child rest => containsOther child || containsOtherL rest
end

/-! ## Traversal policies (`src/print_tree.rs`) -/

/-- Split a character list at every `.` (what `splitn`/`rsplitn` on `.`
sees; `"a.b"` gives `["a", "b"]`, `""` gives `[""]`). -/
def splitDot : List Char → List (List Char)
  | [] => [[]]
  | c :: rest =>
    match splitDot rest with
    | [] => [[]]
    | g :: gs => if c = '.' then [] :: g :: gs else (c :: g) :: gs

/-- `Path::extension()` on the path's file name (its last component):
the portion after the last `.`, absent when there is no `.` or when the
only `.` starts the name (hidden files such as `.gitignore`). -/
def extOf (s : String) : Option String :=
  let parts := splitDot s.data
  if parts.length ≤ 1 then none
  else if parts.head? = some [] ∧ parts.length = 2 then none
  else parts.getLast?.map fun cs => String.mk cs

/-- The extension of a path: `extension()` of its last component. -/
def pathExt (p : FPath) : Option String :=
  match p.getLast? with
  | none => none
  | some name => extOf name

/-- Strict byte-lexicographic comparison of two character lists (Rust's
`str`/`OsStr` ordering; UTF-8 byte order agrees with code-point order). -/
def charsLtB : List Char → List Char → Bool
  | [], [] => false
  | [], _ :: _ => true
  | _ :: _, [] => false
  | a :: as, b :: bs => if a = b then charsLtB as bs else decide (a.toNat < b.toNat)

/-- `PathBuf`'s derived `≤`: componentwise lexicographic order, components
compared as strings. -/
def pathLeB : FPath → FPath → Bool
  | [], _ => true
  | _ :: _, [] => false
  | a :: as, b :: bs => if a = b then pathLeB as bs else charsLtB a.data b.data

/-- Stable insertion into a sorted list: the new element goes before the
first element it compares `le` to, so ties keep first-come order. -/
def insertLeStable {α : Type} (le : α → α → Bool) (a : α) : List α → List α
  | [] => [a]
  | b :: rest => if le a b then a :: b :: rest else b :: insertLeStable le a rest

/-- A stable sort by a total boolean `le`, modelling Rust's stable
`slice::sort` / `sort_by` (for a total preorder the stable sorted
permutation is unique, so any correct stable sort agrees). -/
def sortByStable {α : Type} (le : α → α → Bool) (l : List α) : List α :=
  l.foldr (insertLeStable le) []

/-- The comparator of `show_lexicographic_recursive`'s
`sort_by(|a, b| get_size(b).cmp(&get_size(a)))`: `a` may come before `b`
exactly when `b`'s aggregate size is at most `a`'s (descending size). -/
def sizeDescLe (m : List (FPath × EntryNode)) (a b : FPath) : Bool :=
  (getSizeTop m b).getD 0 ≤ (getSizeTop m a).getD 0

/-- One printed line: the path, the displayed size value, and the depth. -/
abbrev ShowLine := FPath × Nat × Nat

/-- `FileTree::show_lexicographic_recursive` (fuel-indexed): despite its
name and doc comment, it sorts children by descending aggregate size
(`// Triage par taille`) before printing the directory line and recursing. -/
def showLexF (m : List (FPath × EntryNode)) : Nat → FPath → Nat → List ShowLine
  | 0, _, _ => []
  | fuel + 1, p, depth =>
    match lookupA m p with
    | none => []
    | some (.File s) => [(p, s, depth)]
    | some (.Directory cs) =>
        (p, (getSizeTop m p).getD 0, depth) ::
          ((sortByStable (sizeDescLe m) cs).map
            (fun c => showLexF m fuel c (depth + 1))).flatten

/-- `FileTree::show_filtered_recursive` (fuel-indexed): a file line is
printed only when the path's extension equals the filter; a directory is
always printed and recursed into, children in stored order. -/
def showFilteredF (m : List (FPath × EntryNode)) (filter : String) :
    Nat → FPath → Nat → List ShowLine
  | 0, _, _ => []
  | fuel + 1, p, depth =>
    match lookupA m p with
    | none => []
    | some (.File s) =>
        if pathExt p = some filter then [(p, s, depth)] else []
    | some (.Directory cs) =>
        (p, (getSizeTop m p).getD 0, depth) ::
          (cs.map (fun c => showFilteredF m filter fuel c (depth + 1))).flatten

/-- `FileTree::show_lexicographic_filtered_recursive` (fuel-indexed):
children sorted by path order (`sorted_children.sort()`), file lines subject
to the extension filter. -/
def showLexFilteredF (m : List (FPath × EntryNode)) (filter : String) :
    Nat → FPath → Nat → List ShowLine
  | 0, _, _ => []
  | fuel + 1, p, depth =>
    match lookupA m p with
    | none => []
    | some (.File s) =>
        if pathExt p = some filter then [(p, s, depth)] else []
    | some (.Directory cs) =>
        (p, (getSizeTop m p).getD 0, depth) ::
          ((sortByStable pathLeB cs).map
            (fun c => showLexFilteredF m filter fuel c (depth + 1))).flatten

/-- `FileTree::show_lexicographic`: the sorted traversal from the root. -/
def FileTree.show_lexicographic (t : FileTree) : List ShowLine :=
  showLexF t.map (t.map.length + 1) t.root 0

/-- `FileTree::show_filtered`: dispatches on the `lexicographic_sort` flag. -/
def FileTree.show_filtered (t : FileTree) (filter : String)
    (lexicographic_sort : Bool) : List ShowLine :=
  if lexicographic_sort then showLexFilteredF t.map filter (t.map.length + 1) t.root 0
  else showFilteredF t.map filter (t.map.length + 1) t.root 0

/-- The paths of a traversal's printed lines, in print order. -/
def pathsOf (lines : List ShowLine) : List FPath :=
  lines.map (fun x => x.1)

/-- Reachability in an index by following `children` edges from a start
path (the paths a traversal can visit). -/
inductive Reaches (m : List (FPath × EntryNode)) : FPath → FPath → Prop where
  | refl (p : FPath) : Reaches m p p
  | step {p q c : FPath} {cs : List FPath} :
      Reaches m p q → lookupA m q = some (.Directory cs) → c ∈ cs → Reaches m p c

/-! ## Concrete sample inputs used to exercise the theorems -/

/-- A sample built index: root `R` holding directory `D` (with file `c.u`,
4 bytes) and files `a.t` (1 byte) and `b.t` (2 bytes); `a.t` and `b.t`
share a signature. -/
def sampleTree : FileTree :=
  ⟨["R"],
   [(["R"], .Directory [["R", "D"], ["R", "a.t"], ["R", "b.t"]]),
    (["R", "D"], .Directory [["R", "D", "c.u"]]),
    (["R", "a.t"], .File 1),
    (["R", "b.t"], .File 2),
    (["R", "D", "c.u"], .File 4)],
   [(["R", "a.t"], ['s']), (["R", "b.t"], ['s']), (["R", "D", "c.u"], ['u'])]⟩

/-- A rank function witnessing that `sampleTree`'s index is acyclic. -/
def sampleRank : FPath → Nat :=
  fun p => if p = ["R"] then 2 else if p = ["R", "D"] then 1 else 0

/-- A sample digest function standing in for MD5. -/
def mdSample : List Nat → List Nat := fun l => [l.length % 256]

/-- The paths carrying signature `k`, in table order (the reference reading
of one signature's group). -/
def groupList (k : List Char) (sigs : List (FPath × List Char)) : List FPath :=
  sigs.filterMap (fun ps => if ps.2 = k then some ps.1 else none)

/-! # Theorems -/

/-! ## Association-list lemmas -/

theorem lookupA_insertA {α β : Type} [DecidableEq α] (m : List (α × β)) (k : α) (v : β)
    (a : α) : lookupA (insertA m k v) a = if a = k then some v else lookupA m a := by
  induction m with
  | nil => simp [insertA, lookupA]
  | cons kv rest ih =>
    obtain ⟨k', v'⟩ := kv
    by_cases hk : k' = k
    · subst hk
      by_cases ha : a = k' <;> simp [insertA, lookupA, ha]
    · by_cases ha : a = k'
      · subst ha
        simp [insertA, hk, lookupA]
      · simp [insertA, hk, lookupA, ha, ih]

theorem lookupA_mem {α β : Type} [DecidableEq α] {m : List (α × β)} {a : α} {v : β}
    (h : lookupA m a = some v) : (a, v) ∈ m := by
  induction m with
  | nil => simp [lookupA] at h
  | cons kv rest ih =>
    obtain ⟨k, w⟩ := kv
    by_cases ha : a = k
    · subst ha
      have h' : w = v := by simpa [lookupA] using h
      subst h'
      exact List.mem_cons_self _ _
    · simp only [lookupA, if_neg ha] at h
      exact List.mem_cons_of_mem _ (ih h)

theorem lookupA_isSome_of_mem {α β : Type} [DecidableEq α] {m : List (α × β)} {a : α}
    {v : β} (h : (a, v) ∈ m) : (lookupA m a).isSome := by
  induction m with
  | nil => simp at h
  | cons kv rest ih =>
    obtain ⟨k, w⟩ := kv
    by_cases ha : a = k
    · subst ha
      simp [lookupA]
    · simp only [lookupA, if_neg ha]
      rcases List.mem_cons.1 h with h1 | h1
      · exact absurd (congrArg Prod.fst h1) ha
      · exact ih h1

theorem mem_lookupA {α β : Type} [DecidableEq α] {m : List (α × β)} {a : α} {v : β}
    (hnd : NoDupKeys m) (h : (a, v) ∈ m) : lookupA m a = some v := by
  induction m with
  | nil => simp at h
  | cons kv rest ih =>
    obtain ⟨k, w⟩ := kv
    unfold NoDupKeys keysA at hnd
    simp only [List.map_cons, List.nodup_cons] at hnd
    rcases List.mem_cons.1 h with h1 | h1
    · rw [show a = k from congrArg Prod.fst h1, show v = w from congrArg Prod.snd h1]
      simp [lookupA]
    · have hne : a ≠ k := by
        rintro rfl
        exact hnd.1 (List.mem_map.2 ⟨(a, v), h1, rfl⟩)
      simp only [lookupA, if_neg hne]
      exact ih hnd.2 h1

theorem lookupA_none_of_not_mem_keys {α β : Type} [DecidableEq α] {m : List (α × β)}
    {a : α} (h : a ∉ keysA m) : lookupA m a = none := by
  induction m with
  | nil => rfl
  | cons kv rest ih =>
    unfold keysA at h
    simp only [List.map_cons, List.mem_cons, not_or] at h
    simp only [lookupA, if_neg h.1]
    exact ih h.2

theorem mem_keys_of_lookupA_isSome {α β : Type} [DecidableEq α] {m : List (α × β)}
    {a : α} (h : (lookupA m a).isSome) : a ∈ keysA m := by
  by_contra hc
  rw [lookupA_none_of_not_mem_keys hc] at h
  simp at h

/-- **C7**: the query surface never fails: `get_map_option` is the raw
lookup; an unknown path yields an absent (not erroneous) result from
`get_children`, `get_size`, `get_map_option` and `files`; and
`get_children` is present exactly on paths whose entry is a directory
(absent for files), returning the stored children. -/
theorem queries_total_get_children_iff_directory (t : FileTree) (p : FPath) :
    ((t.get_children p).isSome ↔ ∃ cs, lookupA t.map p = some (.Directory cs)) ∧
    (∀ cs, lookupA t.map p = some (.Directory cs) → t.get_children p = some cs) ∧
    (∀ s, lookupA t.map p = some (.File s) → t.get_children p = none) ∧
    (t.get_map_option p = lookupA t.map p) ∧
    (lookupA t.map p = none →
      t.get_children p = none ∧ t.get_size p = none ∧
      t.get_map_option p = none ∧ p ∉ t.files) := by
  refine ⟨?_, ?_, ?_, rfl, ?_⟩
  · unfold FileTree.get_children
    match h : lookupA t.map p with
    | none => simp
    | some (.File s) => simp
    | some (.Directory cs) => simp
  · intro cs h
    unfold FileTree.get_children
    rw [h]
  · intro s h
    unfold FileTree.get_children
    rw [h]
  · intro h
    refine ⟨?_, ?_, h, ?_⟩
    · unfold FileTree.get_children
      rw [h]
    · unfold FileTree.get_size getSizeTop getSizeF
      rw [h]
    · intro hin
      unfold FileTree.files at hin
      rcases List.mem_filterMap.1 hin with ⟨kv, hkv, hval⟩
      have hp : kv.1 = p := by
        cases h2 : kv.2 <;> rw [h2] at hval <;> simp at hval
        exact hval
      have hs : (lookupA t.map p).isSome := by
        rw [← hp]
        exact lookupA_isSome_of_mem (show (kv.1, kv.2) ∈ t.map from hkv)
      rw [h] at hs
      simp at hs

theorem queries_total_witness :
    (sampleTree.get_children ["R"]).isSome ↔
      ∃ cs, lookupA sampleTree.map ["R"] = some (.Directory cs) :=
  (queries_total_get_children_iff_directory sampleTree ["R"]).1

/-! ## Aggregate size (`FileTree::get_size`, claim C2) -/

/-- On an index admitting a rank function that strictly decreases along
directory-children edges (every index built from a real filesystem walk),
`getSizeF` does not depend on the fuel once the fuel exceeds the rank. -/
theorem getSizeF_stable (m : List (FPath × EntryNode)) (rank : FPath → Nat)
    (hdesc : ∀ kv ∈ m, ∀ c ∈ childrenOf kv.2, rank c < rank kv.1) :
    ∀ (n : Nat) (p : FPath), rank p ≤ n → ∀ f g, rank p < f → rank p < g →
      getSizeF m f p = getSizeF m g p := by
  intro n
  induction n with
  | zero =>
    intro p hpn f g hf hg
    cases f with
    | zero => omega
    | succ f' =>
      cases g with
      | zero => omega
      | succ g' =>
        match hm : lookupA m p with
        | none => simp only [getSizeF, hm]
        | some (.File s) => simp only [getSizeF, hm]
        | some (.Directory cs) =>
          simp only [getSizeF, hm]
          have : ∀ c ∈ cs, False := by
            intro c hc
            have := hdesc _ (lookupA_mem hm) c hc
            simp only [childrenOf] at this
            omega
          congr 1
          congr 1
          exact List.filterMap_congr (fun c hc => absurd hc (fun h => this c h))
  | succ n ih =>
    intro p hpn f g hf hg
    cases f with
    | zero => omega
    | succ f' =>
      cases g with
      | zero => omega
      | succ g' =>
        match hm : lookupA m p with
        | none => simp only [getSizeF, hm]
        | some (.File s) => simp only [getSizeF, hm]
        | some (.Directory cs) =>
          simp only [getSizeF, hm]
          congr 1
          congr 1
          apply List.filterMap_congr
          intro c hc
          have hlt : rank c < rank p := by
            have := hdesc _ (lookupA_mem hm) c hc
            simpa [childrenOf] using this
          exact ih c (by omega) f' g' (by omega) (by omega)

/-- **C2**: on every index with an acyclicity rank bounded by the index
length (any built tree), `get_size` of a file path is its stored size;
`get_size` of a directory path is the sum of the recursively computed
sizes of its children (children with an absent size being skipped, which
never happens on a built tree — presence is preserved, last conjunct);
`get_size` of an unknown path is absent. -/
theorem get_size_file_dir_none (t : FileTree) (rank : FPath → Nat)
    (hdesc : ∀ kv ∈ t.map, ∀ c ∈ childrenOf kv.2, rank c < rank kv.1)
    (hbound : ∀ kv ∈ t.map, rank kv.1 ≤ t.map.length) :
    (∀ p s, lookupA t.map p = some (.File s) → t.get_size p = some s) ∧
    (∀ d cs, lookupA t.map d = some (.Directory cs) →
      t.get_size d = some ((cs.filterMap (fun c => t.get_size c)).sum)) ∧
    (∀ p, lookupA t.map p = none → t.get_size p = none) ∧
    (∀ p, (lookupA t.map p).isSome → (t.get_size p).isSome) := by
  refine ⟨?_, ?_, ?_, ?_⟩
  · intro p s h
    unfold FileTree.get_size getSizeTop
    simp only [getSizeF, h]
  · intro d cs h
    unfold FileTree.get_size getSizeTop
    simp only [getSizeF, h]
    congr 1
    congr 1
    apply List.filterMap_congr
    intro c hc
    have hcd : rank c < rank d := by
      have := hdesc _ (lookupA_mem h) c hc
      simpa [childrenOf] using this
    have hdb : rank d ≤ t.map.length := hbound _ (lookupA_mem h)
    show getSizeF t.map t.map.length c = t.get_size c
    unfold FileTree.get_size getSizeTop
    exact getSizeF_stable t.map rank hdesc (rank c) c le_rfl t.map.length
      (t.map.length + 1) (by omega) (by omega)
  · intro p h
    unfold FileTree.get_size getSizeTop
    simp only [getSizeF, h]
  · intro p h
    unfold FileTree.get_size getSizeTop
    match hm : lookupA t.map p with
    | none => rw [hm] at h; simp at h
    | some (.File s) => simp only [getSizeF, hm]; rfl
    | some (.Directory cs) => simp only [getSizeF, hm]; rfl

theorem get_size_witness :
    lookupA sampleTree.map ["R"] =
      some (.Directory [["R", "D"], ["R", "a.t"], ["R", "b.t"]]) ∧
    sampleTree.get_size ["R"] =
      some (([["R", "D"], ["R", "a.t"], ["R", "b.t"]].filterMap
        (fun c => sampleTree.get_size c)).sum) :=
  ⟨by decide,
   (get_size_file_dir_none sampleTree sampleRank (by decide) (by decide)).2.1
     ["R"] [["R", "D"], ["R", "a.t"], ["R", "b.t"]] (by decide)⟩

/-! ## Lexicographic traversal policy (claim C3) -/

/-- **C3** (divergence witness): with lexicographic sort selected and no
filter, `show_lexicographic_recursive` sorts the root's children by
descending aggregate size (its inline comment says `Triage par taille`,
against its own doc comment), so `R/b.t` is visited before `R/a.t` even
though `R/a.t` strictly precedes `R/b.t` in path order; the filtered
variant `show_lexicographic_filtered_recursive` does sort by path order
on the same tree. -/
theorem show_lexicographic_orders_by_size_not_path :
    sampleTree.show_lexicographic =
      [(["R"], 7, 0), (["R", "D"], 4, 1), (["R", "D", "c.u"], 4, 2),
       (["R", "b.t"], 2, 1), (["R", "a.t"], 1, 1)] ∧
    pathLeB ["R", "a.t"] ["R", "b.t"] = true ∧
    pathLeB ["R", "b.t"] ["R", "a.t"] = false ∧
    sampleTree.show_filtered "t" true =
      [(["R"], 7, 0), (["R", "D"], 4, 1), (["R", "a.t"], 1, 1),
       (["R", "b.t"], 2, 1)] := by
  refine ⟨by decide, by decide, by decide, by decide⟩

/-! ## Grouping lemmas (`find_duplicates`, claims C1 and C4) -/

theorem lookupA_entryPush (acc : List (List Char × List FPath)) (s : List Char) (p : FPath)
    (k : List Char) :
    lookupA (entryPush acc s p) k =
      if k = s then some ((lookupA acc s).getD [] ++ [p]) else lookupA acc k := by
  induction acc with
  | nil =>
    by_cases hk : k = s <;> simp [entryPush, lookupA, hk]
  | cons kv rest ih =>
    obtain ⟨k', v'⟩ := kv
    by_cases hks : k' = s
    · subst hks
      by_cases hk : k = k' <;> simp [entryPush, lookupA, hk]
    · have hsk : ¬ s = k' := fun h => hks h.symm
      by_cases hk : k = k'
      · subst hk
        simp [entryPush, hks, lookupA, hsk, ih]
      · simp [entryPush, hks, lookupA, hsk, hk, ih]

theorem mem_keysA_entryPush (acc : List (List Char × List FPath)) (s : List Char) (p : FPath)
    (k : List Char) : k ∈ keysA (entryPush acc s p) ↔ k ∈ keysA acc ∨ k = s := by
  induction acc with
  | nil => simp [entryPush, keysA]
  | cons kv rest ih =>
    obtain ⟨k', v'⟩ := kv
    by_cases hks : k' = s
    · subst hks
      simp only [keysA] at *
      simp [entryPush]
      tauto
    · simp only [keysA] at *
      simp [entryPush, hks, ih]
      tauto

theorem noDupKeys_entryPush {acc : List (List Char × List FPath)} (s : List Char) (p : FPath)
    (h : NoDupKeys acc) : NoDupKeys (entryPush acc s p) := by
  induction acc with
  | nil => simp [NoDupKeys, entryPush, keysA]
  | cons kv rest ih =>
    obtain ⟨k', v'⟩ := kv
    simp only [NoDupKeys, keysA] at h ⊢
    simp only [List.map_cons, List.nodup_cons] at h
    by_cases hks : k' = s
    · subst hks
      simp [entryPush]
      refine ⟨fun x hx => h.1 (List.mem_map.2 ⟨(k', x), hx, rfl⟩), h.2⟩
    · simp only [entryPush, if_neg hks, List.map_cons, List.nodup_cons]
      refine ⟨?_, ih h.2⟩
      intro hmem
      rcases (mem_keysA_entryPush rest s p k').1 hmem with h1 | h1
      · exact h.1 h1
      · exact hks h1

theorem lookupA_entryAppend (acc : List (List Char × List FPath)) (s : List Char)
    (v : List FPath) (k : List Char) :
    lookupA (entryAppend acc s v) k =
      if k = s then some ((lookupA acc s).getD [] ++ v) else lookupA acc k := by
  induction acc with
  | nil =>
    by_cases hk : k = s <;> simp [entryAppend, lookupA, hk]
  | cons kv rest ih =>
    obtain ⟨k', w'⟩ := kv
    by_cases hks : k' = s
    · subst hks
      by_cases hk : k = k' <;> simp [entryAppend, lookupA, hk]
    · have hsk : ¬ s = k' := fun h => hks h.symm
      by_cases hk : k = k'
      · subst hk
        simp [entryAppend, hks, lookupA, hsk, ih]
      · simp [entryAppend, hks, lookupA, hsk, hk, ih]

theorem mem_keysA_entryAppend (acc : List (List Char × List FPath)) (s : List Char)
    (v : List FPath) (k : List Char) :
    k ∈ keysA (entryAppend acc s v) ↔ k ∈ keysA acc ∨ k = s := by
  induction acc with
  | nil => simp [entryAppend, keysA]
  | cons kv rest ih =>
    obtain ⟨k', w'⟩ := kv
    by_cases hks : k' = s
    · subst hks
      simp only [keysA] at *
      simp [entryAppend]
      tauto
    · simp only [keysA] at *
      simp [entryAppend, hks, ih]
      tauto

theorem noDupKeys_entryAppend {acc : List (List Char × List FPath)} (s : List Char)
    (v : List FPath) (h : NoDupKeys acc) : NoDupKeys (entryAppend acc s v) := by
  induction acc with
  | nil => simp [NoDupKeys, entryAppend, keysA]
  | cons kv rest ih =>
    obtain ⟨k', w'⟩ := kv
    simp only [NoDupKeys, keysA] at h ⊢
    simp only [List.map_cons, List.nodup_cons] at h
    by_cases hks : k' = s
    · subst hks
      simp [entryAppend]
      refine ⟨fun x hx => h.1 (List.mem_map.2 ⟨(k', x), hx, rfl⟩), h.2⟩
    · simp only [entryAppend, if_neg hks, List.map_cons, List.nodup_cons]
      refine ⟨?_, ih h.2⟩
      intro hmem
      rcases (mem_keysA_entryAppend rest s v k').1 hmem with h1 | h1
      · exact h.1 h1
      · exact hks h1

theorem foldPart_go_lookup_getD (l : List (FPath × List Char)) :
    ∀ (acc : List (List Char × List FPath)) (k : List Char),
      (lookupA (l.foldl (fun acc ps => entryPush acc ps.2 ps.1) acc) k).getD [] =
        (lookupA acc k).getD [] ++ groupList k l := by
  induction l with
  | nil => simp [groupList]
  | cons ps rest ih =>
    intro acc k
    obtain ⟨p, s⟩ := ps
    simp only [List.foldl_cons]
    rw [ih]
    by_cases hk : k = s
    · subst hk
      rw [lookupA_entryPush]
      simp [groupList, List.filterMap_cons]
    · rw [lookupA_entryPush]
      have hsk : ¬ s = k := fun h => hk h.symm
      simp [groupList, List.filterMap_cons, hk, hsk]

theorem foldPart_go_lookup_isSome (l : List (FPath × List Char)) :
    ∀ (acc : List (List Char × List FPath)) (k : List Char),
      (lookupA (l.foldl (fun acc ps => entryPush acc ps.2 ps.1) acc) k).isSome ↔
        (lookupA acc k).isSome ∨ groupList k l ≠ [] := by
  induction l with
  | nil => simp [groupList]
  | cons ps rest ih =>
    intro acc k
    obtain ⟨p, s⟩ := ps
    simp only [List.foldl_cons]
    rw [ih]
    by_cases hk : k = s
    · subst hk
      rw [lookupA_entryPush]
      simp [groupList, List.filterMap_cons]
    · rw [lookupA_entryPush]
      have hsk : ¬ s = k := fun h => hk h.symm
      simp [groupList, List.filterMap_cons, hk, hsk]

theorem noDupKeys_foldPart_go (l : List (FPath × List Char)) :
    ∀ acc, NoDupKeys acc →
      NoDupKeys (l.foldl (fun acc ps => entryPush acc ps.2 ps.1) acc) := by
  induction l with
  | nil => intro acc h; exact h
  | cons ps rest ih =>
    intro acc h
    simp only [List.foldl_cons]
    exact ih _ (noDupKeys_entryPush _ _ h)

theorem foldPart_lookup_getD (sigs : List (FPath × List Char)) (k : List Char) :
    (lookupA (foldPart sigs) k).getD [] = groupList k sigs := by
  unfold foldPart
  rw [foldPart_go_lookup_getD]
  simp [lookupA]

theorem foldPart_lookup_isSome (sigs : List (FPath × List Char)) (k : List Char) :
    (lookupA (foldPart sigs) k).isSome ↔ groupList k sigs ≠ [] := by
  unfold foldPart
  rw [foldPart_go_lookup_isSome]
  simp [lookupA]

theorem noDupKeys_foldPart (sigs : List (FPath × List Char)) : NoDupKeys (foldPart sigs) :=
  noDupKeys_foldPart_go sigs [] (by simp [NoDupKeys, keysA])

theorem lookupA_mergeMaps_getD (b : List (List Char × List FPath)) :
    ∀ a, NoDupKeys b → ∀ k,
      (lookupA (mergeMaps a b) k).getD [] =
        (lookupA a k).getD [] ++ (lookupA b k).getD [] := by
  induction b with
  | nil => intro a _ k; simp [mergeMaps, lookupA]
  | cons kv rest ih =>
    intro a hnd k
    obtain ⟨k', v'⟩ := kv
    simp only [NoDupKeys, keysA, List.map_cons, List.nodup_cons] at hnd
    have hstep : mergeMaps a ((k', v') :: rest) = mergeMaps (entryAppend a k' v') rest := by
      simp [mergeMaps]
    rw [hstep, ih _ hnd.2 k]
    by_cases hk : k = k'
    · subst hk
      rw [lookupA_entryAppend]
      have hrest : lookupA rest k = none :=
        lookupA_none_of_not_mem_keys (by simpa [keysA] using hnd.1)
      simp [lookupA, hrest]
    · rw [lookupA_entryAppend]
      simp [lookupA, hk]

theorem lookupA_mergeMaps_isSome (b : List (List Char × List FPath)) :
    ∀ a, NoDupKeys b → ∀ k,
      ((lookupA (mergeMaps a b) k).isSome ↔
        (lookupA a k).isSome ∨ (lookupA b k).isSome) := by
  induction b with
  | nil => intro a _ k; simp [mergeMaps, lookupA]
  | cons kv rest ih =>
    intro a hnd k
    obtain ⟨k', v'⟩ := kv
    simp only [NoDupKeys, keysA, List.map_cons, List.nodup_cons] at hnd
    have hstep : mergeMaps a ((k', v') :: rest) = mergeMaps (entryAppend a k' v') rest := by
      simp [mergeMaps]
    rw [hstep, ih _ hnd.2 k]
    by_cases hk : k = k'
    · subst hk
      rw [lookupA_entryAppend]
      simp [lookupA]
    · rw [lookupA_entryAppend]
      simp [lookupA, hk]

theorem noDupKeys_mergeMaps (b : List (List Char × List FPath)) :
    ∀ a, NoDupKeys a → NoDupKeys (mergeMaps a b) := by
  induction b with
  | nil => intro a h; exact h
  | cons kv rest ih =>
    intro a h
    have hstep : mergeMaps a (kv :: rest) = mergeMaps (entryAppend a kv.1 kv.2) rest := by
      simp [mergeMaps]
    rw [hstep]
    exact ih _ (noDupKeys_entryAppend _ _ h)

theorem bigMerge_lookup_getD (parts : List (List (FPath × List Char))) :
    ∀ (init : List (List Char × List FPath)) (k : List Char),
      (lookupA ((parts.map foldPart).foldl mergeMaps init) k).getD [] =
        (lookupA init k).getD [] ++ (parts.map (fun part => groupList k part)).flatten := by
  induction parts with
  | nil => intro init k; simp
  | cons part rest ih =>
    intro init k
    simp only [List.map_cons, List.foldl_cons]
    rw [ih, lookupA_mergeMaps_getD _ _ (noDupKeys_foldPart part), foldPart_lookup_getD]
    simp

theorem bigMerge_lookup_isSome (parts : List (List (FPath × List Char))) :
    ∀ (init : List (List Char × List FPath)) (k : List Char),
      ((lookupA ((parts.map foldPart).foldl mergeMaps init) k).isSome ↔
        (lookupA init k).isSome ∨
          (parts.map (fun part => groupList k part)).flatten ≠ []) := by
  induction parts with
  | nil => intro init k; simp
  | cons part rest ih =>
    intro init k
    simp only [List.map_cons, List.foldl_cons]
    rw [ih, lookupA_mergeMaps_isSome _ _ (noDupKeys_foldPart part), foldPart_lookup_isSome]
    simp only [List.flatten_cons, ne_eq, List.append_eq_nil, not_and]
    constructor
    · rintro ((h | h) | h)
      · exact Or.inl h
      · exact Or.inr (fun hc => absurd hc h)
      · exact Or.inr (fun _ => by
          intro hc
          exact h hc)
    · rintro (h | h)
      · exact Or.inl (Or.inl h)
      · by_cases hp : groupList k part = []
        · exact Or.inr (h hp)
        · exact Or.inl (Or.inr hp)

theorem noDupKeys_bigMerge (parts : List (List (FPath × List Char))) :
    ∀ init, NoDupKeys init → NoDupKeys ((parts.map foldPart).foldl mergeMaps init) := by
  induction parts with
  | nil => intro init h; exact h
  | cons part rest ih =>
    intro init h
    simp only [List.map_cons, List.foldl_cons]
    exact ih _ (noDupKeys_mergeMaps _ _ h)

theorem groupList_sublist (k : List Char) (sigs : List (FPath × List Char)) :
    (groupList k sigs).Sublist (keysA sigs) := by
  induction sigs with
  | nil => simp [groupList, keysA]
  | cons ps rest ih =>
    obtain ⟨p, s⟩ := ps
    by_cases hs : s = k
    · simp only [groupList, List.filterMap_cons, hs, if_pos rfl, keysA, List.map_cons]
      exact (ih : _).cons₂ p
    · simp only [groupList, List.filterMap_cons, if_neg hs, keysA, List.map_cons]
      exact (ih : _).cons p

theorem groupList_nodup {sigs : List (FPath × List Char)} (hnd : NoDupKeys sigs)
    (k : List Char) : (groupList k sigs).Nodup :=
  (groupList_sublist k sigs).nodup hnd

theorem mem_groupList {p : FPath} {k : List Char} {sigs : List (FPath × List Char)} :
    p ∈ groupList k sigs ↔ (p, k) ∈ sigs := by
  unfold groupList
  rw [List.mem_filterMap]
  constructor
  · rintro ⟨ps, hmem, hps⟩
    obtain ⟨p', s'⟩ := ps
    by_cases hs : s' = k
    · subst hs
      have hpp : p' = p := by simpa using hps
      subst hpp
      exact hmem
    · simp [hs] at hps
  · intro h
    exact ⟨(p, k), h, by simp⟩

theorem groupList_append (k : List Char) (l1 l2 : List (FPath × List Char)) :
    groupList k (l1 ++ l2) = groupList k l1 ++ groupList k l2 := by
  unfold groupList
  rw [List.filterMap_append]

theorem groupList_flatten (k : List Char) (parts : List (List (FPath × List Char))) :
    groupList k parts.flatten = (parts.map (fun part => groupList k part)).flatten := by
  induction parts with
  | nil => simp [groupList]
  | cons part rest ih =>
    simp only [List.flatten_cons, List.map_cons]
    rw [groupList_append, ih]

theorem groupList_perm (k : List Char) {l1 l2 : List (FPath × List Char)}
    (h : l1.Perm l2) : (groupList k l1).Perm (groupList k l2) :=
  h.filterMap _

theorem two_mem_one_lt_length {α : Type} {l : List α} {p q : α}
    (hp : p ∈ l) (hq : q ∈ l) (hne : p ≠ q) : 1 < l.length := by
  match l with
  | [] => simp at hp
  | [a] =>
    simp only [List.mem_singleton] at hp hq
    exact absurd (hp.trans hq.symm) hne
  | a :: b :: rest => simp

theorem exists_other_mem {α : Type} {l : List α} {p : α}
    (hnodup : l.Nodup) (hlen : 1 < l.length) (hp : p ∈ l) : ∃ q ∈ l, q ≠ p := by
  match l with
  | [] => simp at hp
  | [a] => simp at hlen
  | a :: b :: rest =>
    have hab : a ≠ b := by
      simp only [List.nodup_cons, List.mem_cons] at hnodup
      exact fun h => hnodup.1 (Or.inl h)
    by_cases hpa : p = a
    · subst hpa
      exact ⟨b, by simp, fun h => hab h.symm⟩
    · exact ⟨a, by simp, fun h => hpa h.symm⟩

theorem lookupA_filter_len (m : List (List Char × List FPath)) (hnd : NoDupKeys m)
    (k : List Char) :
    lookupA (m.filter (fun kv => 1 < kv.2.length)) k =
      match lookupA m k with
      | none => none
      | some v => if 1 < v.length then some v else none := by
  induction m with
  | nil => simp [lookupA]
  | cons kv rest ih =>
    obtain ⟨k', v'⟩ := kv
    simp only [NoDupKeys, keysA, List.map_cons, List.nodup_cons] at hnd
    by_cases hk : k = k'
    · subst hk
      by_cases hlen : 1 < v'.length
      · simp [List.filter_cons, hlen, lookupA]
      · have hnone : lookupA (rest.filter (fun kv => 1 < kv.2.length)) k = none := by
          apply lookupA_none_of_not_mem_keys
          intro hmem
          apply hnd.1
          unfold keysA at hmem
          rcases List.mem_map.1 hmem with ⟨kv2, hkv2, hfst⟩
          exact hfst ▸ List.mem_map.2 ⟨kv2, List.mem_of_mem_filter hkv2, rfl⟩
        simp [List.filter_cons, hlen, lookupA, hnone]
    · by_cases hlen : 1 < v'.length
      · simp [List.filter_cons, hlen, lookupA, hk, ih hnd.2]
      · simp [List.filter_cons, hlen, lookupA, hk, ih hnd.2]

/-- **C1**: in a built tree (signature table with pairwise-distinct path
keys, every signed path bearing a `File` entry), a path `p` appears in some
group returned by `find_duplicates` iff there is another path `q ≠ p` whose
entry is a `File` and whose stored signature equals the stored signature of
`p`; and every returned group has at least two members. -/
theorem find_duplicates_mem_iff (t : FileTree)
    (hnd : NoDupKeys t.signature)
    (hfile : ∀ kv ∈ t.signature, isFileOpt (lookupA t.map kv.1) = true)
    (p : FPath) :
    ((∃ kv, kv ∈ t.find_duplicates ∧ p ∈ kv.2) ↔
      (∃ q s, q ≠ p ∧ isFileOpt (lookupA t.map q) = true ∧
        lookupA t.signature q = some s ∧ lookupA t.signature p = some s)) ∧
    (∀ kv ∈ t.find_duplicates, 2 ≤ kv.2.length) := by
  unfold FileTree.find_duplicates dupGroups
  constructor
  · constructor
    · rintro ⟨kv, hkv, hp⟩
      obtain ⟨hmem, hlen⟩ := List.mem_filter.1 hkv
      have hlen' : 1 < kv.2.length := by simpa using hlen
      have hlook : lookupA (foldPart t.signature) kv.1 = some kv.2 :=
        mem_lookupA (noDupKeys_foldPart _) hmem
      have hgrp : kv.2 = groupList kv.1 t.signature := by
        have h := foldPart_lookup_getD t.signature kv.1
        rw [hlook] at h
        simpa using h
      rw [hgrp] at hp hlen'
      have hps : (p, kv.1) ∈ t.signature := mem_groupList.1 hp
      obtain ⟨q, hq, hqp⟩ := exists_other_mem (groupList_nodup hnd kv.1) hlen' hp
      have hqs : (q, kv.1) ∈ t.signature := mem_groupList.1 hq
      exact ⟨q, kv.1, hqp, hfile _ hqs, mem_lookupA hnd hqs, mem_lookupA hnd hps⟩
    · rintro ⟨q, s, hqp, hqfile, hq, hp⟩
      have hpm : (p, s) ∈ t.signature := lookupA_mem hp
      have hqm : (q, s) ∈ t.signature := lookupA_mem hq
      have hpg : p ∈ groupList s t.signature := mem_groupList.2 hpm
      have hqg : q ∈ groupList s t.signature := mem_groupList.2 hqm
      have hlen : 1 < (groupList s t.signature).length :=
        two_mem_one_lt_length hqg hpg hqp
      have hsome : (lookupA (foldPart t.signature) s).isSome := by
        rw [foldPart_lookup_isSome]
        intro hc
        rw [hc] at hpg
        simp at hpg
      obtain ⟨g, hg⟩ := Option.isSome_iff_exists.1 hsome
      have hgval : g = groupList s t.signature := by
        have h := foldPart_lookup_getD t.signature s
        rw [hg] at h
        simpa using h
      refine ⟨(s, g), ?_, ?_⟩
      · exact List.mem_filter.2 ⟨lookupA_mem hg, by simp [hgval]; omega⟩
      · simpa [hgval] using hpg
  · intro kv hkv
    have h := (List.mem_filter.1 hkv).2
    have hlen : 1 < kv.2.length := by simpa using h
    omega

theorem find_duplicates_witness :
    (∃ kv, kv ∈ sampleTree.find_duplicates ∧ ["R", "a.t"] ∈ kv.2) ↔
      (∃ q s, q ≠ ["R", "a.t"] ∧ isFileOpt (lookupA sampleTree.map q) = true ∧
        lookupA sampleTree.signature q = some s ∧
        lookupA sampleTree.signature ["R", "a.t"] = some s) :=
  (find_duplicates_mem_iff sampleTree (by decide) (by decide) ["R", "a.t"]).1

/-- **C4**: the merge step is associative and commutative up to intra-group
path order: for every signature table and every way of partitioning its
`(path, signature)` pairs across workers (any split, in any order), the
duplicate groups obtained by per-worker folds followed by the reduce agree
with the sequential grouping — the same signatures survive the
`length > 1` filter, and each group is a permutation of the sequential
group for that signature. -/
theorem parDuplicates_perm_sequential (sigs : List (FPath × List Char))
    (parts : List (List (FPath × List Char)))
    (hperm : parts.flatten.Perm sigs) (k : List Char) :
    (((lookupA (parDuplicates parts) k).getD []).Perm
      ((lookupA (dupGroups sigs) k).getD [])) ∧
    ((lookupA (parDuplicates parts) k).isSome ↔
      (lookupA (dupGroups sigs) k).isSome) := by
  have hpg : ((parts.map (fun part => groupList k part)).flatten).Perm
      (groupList k sigs) := by
    rw [← groupList_flatten]
    exact groupList_perm k hperm
  have hndb : NoDupKeys ((parts.map foldPart).foldl mergeMaps []) :=
    noDupKeys_bigMerge parts [] (by simp [NoDupKeys, keysA])
  have hbig := bigMerge_lookup_getD parts [] k
  have hbigS := bigMerge_lookup_isSome parts [] k
  simp only [lookupA, Option.getD_none, List.nil_append, Option.isSome_none,
    Bool.false_eq_true, false_or] at hbig hbigS
  have hfa := lookupA_filter_len _ hndb k
  have hfb := lookupA_filter_len _ (noDupKeys_foldPart sigs) k
  have hseq := foldPart_lookup_getD sigs k
  have hseqS := foldPart_lookup_isSome sigs k
  unfold parDuplicates dupGroups
  rw [hfa, hfb]
  rcases hA : lookupA ((parts.map foldPart).foldl mergeMaps []) k with _ | gP <;>
    rcases hB : lookupA (foldPart sigs) k with _ | gS
  · simp
  · exfalso
    rw [hA] at hbig
    rw [hB] at hseqS
    have hgs : groupList k sigs ≠ [] := by
      simpa using hseqS
    apply hgs
    have : (parts.map (fun part => groupList k part)).flatten = [] := by
      simpa using hbig.symm
    have := this ▸ hpg
    exact this.symm.eq_nil
  · exfalso
    rw [hA] at hbigS
    rw [hB] at hseq
    have hgp : (parts.map (fun part => groupList k part)).flatten ≠ [] := by
      simpa using hbigS
    apply hgp
    have hgs : groupList k sigs = [] := by simpa using hseq.symm
    exact (hgs ▸ hpg).eq_nil
  · rw [hA] at hbig
    rw [hB] at hseq
    have hgp : gP = (parts.map (fun part => groupList k part)).flatten := by
      simpa using hbig
    have hgs : gS = groupList k sigs := by simpa using hseq
    have hperm2 : gP.Perm gS := by
      rw [hgp, hgs]
      exact hpg
    have hlen : gP.length = gS.length := hperm2.length_eq
    by_cases hl : 1 < gS.length
    · have hl2 : 1 < gP.length := by omega
      simp only [if_pos hl, if_pos hl2]
      simpa using hperm2
    · have hl2 : ¬ 1 < gP.length := by omega
      simp [if_neg hl, if_neg hl2]

theorem parDuplicates_witness :
    (((lookupA (parDuplicates
        [[(["R", "b.t"], ['s'])],
         [(["R", "a.t"], ['s']), (["R", "D", "c.u"], ['u'])]]) ['s']).getD []).Perm
      ((lookupA (dupGroups sampleTree.signature) ['s']).getD [])) ∧
    ((lookupA (parDuplicates
        [[(["R", "b.t"], ['s'])],
         [(["R", "a.t"], ['s']), (["R", "D", "c.u"], ['u'])]]) ['s']).isSome ↔
      (lookupA (dupGroups sampleTree.signature) ['s']).isSome) :=
  parDuplicates_perm_sequential sampleTree.signature
    [[(["R", "b.t"], ['s'])], [(["R", "a.t"], ['s']), (["R", "D", "c.u"], ['u'])]]
    (by decide) ['s']

/-! ## Signature lemmas (claim C5) -/

theorem readChunksF_flatten : ∀ (fuel : Nat) (l : List Nat), l.length ≤ fuel →
    (readChunksF fuel l).flatten = l := by
  intro fuel
  induction fuel with
  | zero =>
    intro l hl
    cases l with
    | nil => simp [readChunksF]
    | cons b rest => simp at hl
  | succ fuel ih =>
    intro l hl
    cases l with
    | nil => simp [readChunksF]
    | cons b rest =>
      simp only [readChunksF, List.flatten_cons]
      rw [ih ((b :: rest).drop 8192) (by
        simp only [List.length_drop, List.length_cons] at hl ⊢
        omega)]
      exact List.take_append_drop 8192 (b :: rest)

theorem foldl_mdInput : ∀ (L : List (List Nat)) (acc : List Nat),
    L.foldl mdInput acc = acc ++ L.flatten := by
  intro L
  induction L with
  | nil => simp
  | cons c rest ih =>
    intro acc
    simp only [List.foldl_cons, List.flatten_cons, mdInput, ih, List.append_assoc]

/-- The chunked read loop feeds exactly the file's bytes, in order: the
signature is a function of the content alone. -/
theorem calculate_signature_eq (md5hex : List Nat → List Nat) (content : List Nat) :
    calculate_signature md5hex content = hexEncode (md5hex content) := by
  unfold calculate_signature readChunks
  rw [foldl_mdInput, readChunksF_flatten content.length content le_rfl]
  simp

theorem hexDigitChar_inj :
    ∀ m, m < 16 → ∀ n, n < 16 → hexDigitChar m = hexDigitChar n → m = n := by decide

theorem hexEncode_inj : ∀ (as bs : List Nat), (∀ x ∈ as, x < 256) → (∀ x ∈ bs, x < 256) →
    hexEncode as = hexEncode bs → as = bs := by
  intro as
  induction as with
  | nil =>
    intro bs _ _ h
    cases bs with
    | nil => rfl
    | cons b bs' => simp [hexEncode] at h
  | cons a as' ih =>
    intro bs ha hb h
    cases bs with
    | nil => simp [hexEncode] at h
    | cons b bs' =>
      simp only [hexEncode, List.flatMap_cons, List.cons_append, List.nil_append,
        List.cons.injEq] at h
      obtain ⟨h1, h2, h3⟩ := h
      have hab : a = b := by
        have e1 : a / 16 % 16 = b / 16 % 16 :=
          hexDigitChar_inj _ (Nat.mod_lt _ (by omega)) _ (Nat.mod_lt _ (by omega)) h1
        have e2 : a % 16 = b % 16 :=
          hexDigitChar_inj _ (Nat.mod_lt _ (by omega)) _ (Nat.mod_lt _ (by omega)) h2
        have hha : a < 256 := ha a (by simp)
        have hhb : b < 256 := hb b (by simp)
        omega
      subst hab
      have hrest : as' = bs' :=
        ih bs' (fun x hx => ha x (by simp [hx])) (fun x hx => hb x (by simp [hx]))
          (by simpa [hexEncode] using h3)
      rw [hrest]

/-- **C5**: the signature is determined by the byte content alone
(byte-identical contents give equal signatures, however the chunked read
splits them), and — the digest bytes being in range — two signatures are
equal exactly when the digests are equal, so contents with differing
digests (no MD5 collision) get differing signatures. -/
theorem signature_eq_iff_digest_eq (md5hex : List Nat → List Nat) (a b : List Nat) :
    (calculate_signature md5hex a = hexEncode (md5hex a)) ∧
    (a = b → calculate_signature md5hex a = calculate_signature md5hex b) ∧
    ((∀ x ∈ md5hex a, x < 256) → (∀ x ∈ md5hex b, x < 256) →
      (calculate_signature md5hex a = calculate_signature md5hex b ↔
        md5hex a = md5hex b)) := by
  refine ⟨calculate_signature_eq md5hex a, fun h => by rw [h], fun ha hb => ?_⟩
  rw [calculate_signature_eq, calculate_signature_eq]
  constructor
  · intro h
    exact hexEncode_inj _ _ ha hb h
  · intro h
    rw [h]

theorem signature_witness :
    calculate_signature mdSample [1] = calculate_signature mdSample [2, 3] ↔
      mdSample [1] = mdSample [2, 3] :=
  (signature_eq_iff_digest_eq mdSample [1] [2, 3]).2.2 (by decide) (by decide)

/-! ## Builder invariants (claims C6 and C9) -/

theorem build_mono_closed (md5hex : List Nat → List Nat) :
    ∀ (path : FPath) (node : FsNode) (mp : List (FPath × EntryNode))
      (sigs : List (FPath × List Char)),
      ∀ en m' s', file_explorer md5hex path node mp sigs = Except.ok (en, m', s') →
        (∀ k, (lookupA mp k).isSome → (lookupA m' k).isSome) ∧
        ((∀ p cs, lookupA mp p = some (.Directory cs) → ∀ c ∈ cs, (lookupA mp c).isSome) →
          (∀ p cs, lookupA m' p = some (.Directory cs) → ∀ c ∈ cs, (lookupA m' c).isSome)) ∧
        (∀ c ∈ childrenOf en, (lookupA m' c).isSome) := by
  refine file_explorer.induct md5hex
    (fun path node mp sigs =>
      ∀ en m' s', file_explorer md5hex path node mp sigs = Except.ok (en, m', s') →
        (∀ k, (lookupA mp k).isSome → (lookupA m' k).isSome) ∧
        ((∀ p cs, lookupA mp p = some (.Directory cs) → ∀ c ∈ cs, (lookupA mp c).isSome) →
          (∀ p cs, lookupA m' p = some (.Directory cs) → ∀ c ∈ cs, (lookupA m' c).isSome)) ∧
        (∀ c ∈ childrenOf en, (lookupA m' c).isSome))
    (fun path entries mp sigs =>
      ∀ cs m' s', explore_children md5hex path entries mp sigs = Except.ok (cs, m', s') →
        (∀ k, (lookupA mp k).isSome → (lookupA m' k).isSome) ∧
        ((∀ p cs', lookupA mp p = some (.Directory cs') → ∀ c ∈ cs', (lookupA mp c).isSome) →
          (∀ p cs', lookupA m' p = some (.Directory cs') → ∀ c ∈ cs', (lookupA m' c).isSome)) ∧
        (∀ c ∈ cs, (lookupA m' c).isSome))
    ?_ ?_ ?_ ?_ ?_ ?_ ?_ ?_
  · -- file node
    intro path mp sigs sz content en m' s' heq
    simp only [file_explorer, Except.ok.injEq, Prod.mk.injEq] at heq
    obtain ⟨rfl, rfl, rfl⟩ := heq
    refine ⟨?_, ?_, ?_⟩
    · intro k hk
      rw [lookupA_insertA]
      by_cases h : k = path <;> simp [h, hk]
    · intro hc p cs hl c hcmem
      rw [lookupA_insertA] at hl
      rw [lookupA_insertA]
      by_cases h : p = path
      · rw [if_pos h] at hl
        exact absurd hl (by simp)
      · rw [if_neg h] at hl
        have := hc p cs hl c hcmem
        by_cases h2 : c = path <;> simp [h2, this]
    · simp [childrenOf]
  · -- dir node, children walk fails
    intro path mp sigs entries e herr _ en m' s' heq
    simp [file_explorer, herr] at heq
  · -- dir node, children walk succeeds
    intro path mp sigs entries cs m'0 s'0 hok ih en m' s' heq
    simp only [file_explorer, hok, Except.ok.injEq, Prod.mk.injEq] at heq
    obtain ⟨rfl, rfl, rfl⟩ := heq
    have P := ih cs m'0 s'0 hok
    exact ⟨P.1, P.2.1, by simpa [childrenOf] using P.2.2⟩
  · -- other node (never ok)
    intro path mp sigs en m' s' heq
    simp [file_explorer] at heq
  · -- no more entries
    intro path mp sigs cs m' s' heq
    simp only [explore_children, Except.ok.injEq, Prod.mk.injEq] at heq
    obtain ⟨rfl, rfl, rfl⟩ := heq
    exact ⟨fun k hk => hk, fun hc => hc, by simp⟩
  · -- first entry fails
    intro path mp sigs name child rest e herr _ cs m' s' heq
    simp [explore_children, herr] at heq
  · -- first entry ok, rest fails
    intro path mp sigs name child rest en1 m1 s1 h1 e h2 _ _ cs m' s' heq
    simp [explore_children, h1, h2] at heq
  · -- first entry ok, rest ok
    intro path mp sigs name child rest en1 m1 s1 h1 cs2 m2 s2 h2 ih1 ih2 cs m' s' heq
    simp only [explore_children, h1, h2, Except.ok.injEq, Prod.mk.injEq] at heq
    obtain ⟨rfl, rfl, rfl⟩ := heq
    have P1 := ih1 en1 m1 s1 h1
    have P2 := ih2 cs2 m2 s2 h2
    have monoIns : ∀ k, (lookupA m1 k).isSome →
        (lookupA (insertA m1 (path ++ [name]) en1) k).isSome := by
      intro k hk
      rw [lookupA_insertA]
      by_cases h : k = path ++ [name] <;> simp [h, hk]
    refine ⟨?_, ?_, ?_⟩
    · intro k hk
      exact P2.1 k (monoIns k (P1.1 k hk))
    · intro hc
      have hc1 := P1.2.1 hc
      have hcIns : ∀ p cs', lookupA (insertA m1 (path ++ [name]) en1) p =
          some (.Directory cs') → ∀ c ∈ cs',
            (lookupA (insertA m1 (path ++ [name]) en1) c).isSome := by
        intro p cs' hl c hcmem
        rw [lookupA_insertA] at hl
        by_cases h : p = path ++ [name]
        · rw [if_pos h] at hl
          have hen : en1 = .Directory cs' := by
            injection hl
          apply monoIns
          apply P1.2.2
          rw [hen]
          exact hcmem
        · rw [if_neg h] at hl
          exact monoIns c (hc1 p cs' hl c hcmem)
      exact P2.2.1 hcIns
    · intro c hcmem
      rcases List.mem_cons.1 hcmem with rfl | hcm
      · apply P2.1
        rw [lookupA_insertA, if_pos rfl]
        rfl
      · exact P2.2.2 c hcm

/-- **C9**: in every successfully built tree, the root path is a key of the
index, and every path listed in the children of any `Directory` entry of the
index is itself a key of the index. -/
theorem build_reachability (md5hex : List Nat → List Nat) (root : FPath)
    (fsroot : Option FsNode) (t : FileTree)
    (h : FileTree.new md5hex root fsroot = Except.ok t) :
    (lookupA t.map t.root).isSome ∧
    (∀ p cs, lookupA t.map p = some (.Directory cs) → ∀ c ∈ cs,
      (lookupA t.map c).isSome) := by
  rcases fsroot with _ | node
  · simp [FileTree.new] at h
  · simp only [FileTree.new] at h
    rcases hfe : file_explorer md5hex root node [] [] with e | ⟨en, m, s⟩
    · rw [hfe] at h
      simp at h
    · rw [hfe] at h
      simp only [Except.ok.injEq] at h
      subst h
      have P := build_mono_closed md5hex root node [] [] en m s hfe
      have hclosed : ∀ p cs, lookupA m p = some (.Directory cs) → ∀ c ∈ cs,
          (lookupA m c).isSome := by
        apply P.2.1
        intro p cs hl
        simp [lookupA] at hl
      have monoIns : ∀ k, (lookupA m k).isSome →
          (lookupA (insertA m root en) k).isSome := by
        intro k hk
        rw [lookupA_insertA]
        by_cases hkr : k = root <;> simp [hkr, hk]
      constructor
      · show (lookupA (insertA m root en) root).isSome
        rw [lookupA_insertA, if_pos rfl]
        rfl
      · intro p cs hl c hcmem
        show (lookupA (insertA m root en) c).isSome
        rw [lookupA_insertA] at hl
        by_cases hpr : p = root
        · rw [if_pos hpr] at hl
          have hen : en = .Directory cs := by injection hl
          apply monoIns
          apply P.2.2
          rw [hen]
          exact hcmem
        · rw [if_neg hpr] at hl
          exact monoIns c (hclosed p cs hl c hcmem)

theorem build_reachability_witness :
    (lookupA
      (FileTree.mk ["R"] [(["R", "a"], .File 1), (["R"], .Directory [["R", "a"]])]
        [(["R", "a"], ['0', '1'])]).map
      (FileTree.mk ["R"] [(["R", "a"], .File 1), (["R"], .Directory [["R", "a"]])]
        [(["R", "a"], ['0', '1'])]).root).isSome ∧
    (∀ p cs,
      lookupA
        (FileTree.mk ["R"] [(["R", "a"], .File 1), (["R"], .Directory [["R", "a"]])]
          [(["R", "a"], ['0', '1'])]).map p = some (.Directory cs) →
      ∀ c ∈ cs,
        (lookupA
          (FileTree.mk ["R"] [(["R", "a"], .File 1), (["R"], .Directory [["R", "a"]])]
            [(["R", "a"], ['0', '1'])]).map c).isSome) :=
  build_reachability mdSample ["R"]
    (some (.dir (.cons "a" (.file 1 [1]) .nil)))
    (FileTree.mk ["R"] [(["R", "a"], .File 1), (["R"], .Directory [["R", "a"]])]
      [(["R", "a"], ['0', '1'])])
    rfl

theorem build_errors (md5hex : List Nat → List Nat) :
    ∀ (path : FPath) (node : FsNode) (mp : List (FPath × EntryNode))
      (sigs : List (FPath × List Char)),
      (containsOther node = true →
        file_explorer md5hex path node mp sigs = Except.error .unsupported) ∧
      (containsOther node = false →
        ∃ r, file_explorer md5hex path node mp sigs = Except.ok r) := by
  refine file_explorer.induct md5hex
    (fun path node mp sigs =>
      (containsOther node = true →
        file_explorer md5hex path node mp sigs = Except.error .unsupported) ∧
      (containsOther node = false →
        ∃ r, file_explorer md5hex path node mp sigs = Except.ok r))
    (fun path entries mp sigs =>
      (containsOtherL entries = true →
        explore_children md5hex path entries mp sigs = Except.error .unsupported) ∧
      (containsOtherL entries = false →
        ∃ r, explore_children md5hex path entries mp sigs = Except.ok r))
    ?_ ?_ ?_ ?_ ?_ ?_ ?_ ?_
  · -- file node
    intro path mp sigs sz content
    constructor
    · intro hc
      simp [containsOther] at hc
    · intro _
      exact ⟨(.File sz, insertA mp path (.File sz),
        insertA sigs path (calculate_signature md5hex content)), by simp [file_explorer]⟩
  · -- dir node, children walk fails
    intro path mp sigs entries e herr ih
    constructor
    · intro hc
      simp only [containsOther] at hc
      have := ih.1 hc
      rw [herr] at this
      simp only [Except.error.injEq] at this
      subst this
      simp [file_explorer, herr]
    · intro hc
      simp only [containsOther] at hc
      obtain ⟨r, hr⟩ := ih.2 hc
      rw [herr] at hr
      simp at hr
  · -- dir node, children walk succeeds
    intro path mp sigs entries cs m'0 s'0 hok ih
    constructor
    · intro hc
      simp only [containsOther] at hc
      have := ih.1 hc
      rw [hok] at this
      simp at this
    · intro _
      exact ⟨(.Directory cs, m'0, s'0), by simp [file_explorer, hok]⟩
  · -- other node
    intro path mp sigs
    constructor
    · intro _
      simp [file_explorer]
    · intro hc
      simp [containsOther] at hc
  · -- no more entries
    intro path mp sigs
    constructor
    · intro hc
      simp [containsOtherL] at hc
    · intro _
      exact ⟨([], mp, sigs), by simp [explore_children]⟩
  · -- first entry fails
    intro path mp sigs name child rest e herr ih
    constructor
    · intro hc
      by_cases hchild : containsOther child = true
      · have := ih.1 hchild
        rw [herr] at this
        simp only [Except.error.injEq] at this
        subst this
        simp [explore_children, herr]
      · obtain ⟨r, hr⟩ := ih.2 (by simpa using hchild)
        rw [herr] at hr
        simp at hr
    · intro hc
      simp only [containsOtherL, Bool.or_eq_false_iff] at hc
      obtain ⟨r, hr⟩ := ih.2 hc.1
      rw [herr] at hr
      simp at hr
  · -- first entry ok, rest fails
    intro path mp sigs name child rest en1 m1 s1 h1 e h2 ih1 ih2
    constructor
    · intro hc
      simp only [containsOtherL, Bool.or_eq_true] at hc
      rcases hc with hc | hc
      · have := ih1.1 hc
        rw [h1] at this
        simp at this
      · have := ih2.1 hc
        rw [h2] at this
        simp only [Except.error.injEq] at this
        subst this
        simp [explore_children, h1, h2]
    · intro hc
      simp only [containsOtherL, Bool.or_eq_false_iff] at hc
      obtain ⟨r, hr⟩ := ih2.2 hc.2
      rw [h2] at hr
      simp at hr
  · -- first entry ok, rest ok
    intro path mp sigs name child rest en1 m1 s1 h1 cs2 m2 s2 h2 ih1 ih2
    constructor
    · intro hc
      simp only [containsOtherL, Bool.or_eq_true] at hc
      rcases hc with hc | hc
      · have := ih1.1 hc
        rw [h1] at this
        simp at this
      · have := ih2.1 hc
        rw [h2] at this
        simp at this
    · intro _
      exact ⟨((path ++ [name]) :: cs2, m2, s2), by simp [explore_children, h1, h2]⟩

/-- **C6**: building over a nonexistent root fails with the NotFound error
and produces no tree value; and whenever the subtree contains an entry that
is neither a regular file nor a directory, the whole build aborts with the
unsupported-entry-kind error, so callers never observe a partially built
tree. -/
theorem new_fails_on_missing_root_and_other_entries (md5hex : List Nat → List Nat)
    (root : FPath) :
    (FileTree.new md5hex root none = Except.error .pathNotFound) ∧
    (∀ node, containsOther node = true →
      FileTree.new md5hex root (some node) = Except.error .unsupported) := by
  constructor
  · rfl
  · intro node hc
    have h := (build_errors md5hex root node [] []).1 hc
    simp only [FileTree.new]
    rw [h]

theorem new_fails_witness :
    FileTree.new mdSample ["r"] (some .other) = Except.error .unsupported :=
  (new_fails_on_missing_root_and_other_entries mdSample ["r"]).2 .other rfl

/-! ## Filtered traversal (claim C8) -/

theorem Reaches_head {m : List (FPath × EntryNode)} {p c q : FPath} {cs : List FPath}
    (hm : lookupA m p = some (.Directory cs)) (hc : c ∈ cs) (h : Reaches m c q) :
    Reaches m p q := by
  induction h with
  | refl => exact Reaches.step (Reaches.refl p) hm hc
  | step _ h2 h3 ih => exact Reaches.step ih h2 h3

theorem showFilteredF_paths_depth (m : List (FPath × EntryNode)) (filter : String) :
    ∀ (fu : Nat) (p : FPath) (d d' : Nat),
      pathsOf (showFilteredF m filter fu p d) = pathsOf (showFilteredF m filter fu p d') := by
  intro fu
  induction fu with
  | zero => intro p d d'; rfl
  | succ fu ih =>
    intro p d d'
    match hm : lookupA m p with
    | none => simp [showFilteredF, hm, pathsOf]
    | some (.File s) =>
      by_cases he : pathExt p = some filter <;> simp [showFilteredF, hm, he, pathsOf]
    | some (.Directory cs) =>
      simp only [showFilteredF, hm, pathsOf, List.map_cons, List.cons.injEq, true_and]
      rw [List.map_flatten, List.map_flatten, List.map_map, List.map_map]
      congr 1
      apply List.map_congr_left
      intro c _
      exact ih c (d + 1) (d' + 1)

theorem showFilteredF_stable (m : List (FPath × EntryNode)) (filter : String)
    (rank : FPath → Nat)
    (hdesc : ∀ kv ∈ m, ∀ c ∈ childrenOf kv.2, rank c < rank kv.1) :
    ∀ (n : Nat) (p : FPath), rank p ≤ n → ∀ f g d, rank p < f → rank p < g →
      showFilteredF m filter f p d = showFilteredF m filter g p d := by
  intro n
  induction n with
  | zero =>
    intro p hpn f g d hf hg
    cases f with
    | zero => omega
    | succ f' =>
      cases g with
      | zero => omega
      | succ g' =>
        match hm : lookupA m p with
        | none => simp only [showFilteredF, hm]
        | some (.File s) => simp only [showFilteredF, hm]
        | some (.Directory cs) =>
          simp only [showFilteredF, hm]
          congr 1
          congr 1
          apply List.map_congr_left
          intro c hc
          have h1 := hdesc _ (lookupA_mem hm) c (by simpa [childrenOf] using hc)
          have h2 : rank c < rank p := by simpa using h1
          omega
  | succ n ih =>
    intro p hpn f g d hf hg
    cases f with
    | zero => omega
    | succ f' =>
      cases g with
      | zero => omega
      | succ g' =>
        match hm : lookupA m p with
        | none => simp only [showFilteredF, hm]
        | some (.File s) => simp only [showFilteredF, hm]
        | some (.Directory cs) =>
          simp only [showFilteredF, hm]
          congr 1
          congr 1
          apply List.map_congr_left
          intro c hc
          have hlt : rank c < rank p :=
            hdesc _ (lookupA_mem hm) c (by simpa [childrenOf] using hc)
          exact ih c (by omega) f' g' (d + 1) (by omega) (by omega)

theorem showFilteredF_sound (m : List (FPath × EntryNode)) (filter : String) :
    ∀ (fu : Nat) (p q : FPath) (d : Nat), q ∈ pathsOf (showFilteredF m filter fu p d) →
      Reaches m p q ∧
      (isDirOpt (lookupA m q) = true ∨
        (isFileOpt (lookupA m q) = true ∧ pathExt q = some filter)) := by
  intro fu
  induction fu with
  | zero => intro p q d hq; simp [showFilteredF, pathsOf] at hq
  | succ fu ih =>
    intro p q d hq
    match hm : lookupA m p with
    | none => simp [showFilteredF, hm, pathsOf] at hq
    | some (.File s) =>
      by_cases he : pathExt p = some filter
      · simp only [showFilteredF, hm, if_pos he, pathsOf, List.map_cons, List.map_nil,
          List.mem_singleton] at hq
        subst hq
        exact ⟨Reaches.refl q, Or.inr ⟨by simp [isFileOpt, hm], he⟩⟩
      · simp [showFilteredF, hm, he, pathsOf] at hq
    | some (.Directory cs) =>
      simp only [showFilteredF, hm, pathsOf, List.map_cons, List.mem_cons] at hq
      rcases hq with rfl | hq
      · exact ⟨Reaches.refl q, Or.inl (by simp [isDirOpt, hm])⟩
      · rw [List.map_flatten, List.map_map] at hq
        rcases List.mem_flatten.1 hq with ⟨l, hl, hql⟩
        rcases List.mem_map.1 hl with ⟨c, hcmem, rfl⟩
        have hrec := ih c q (d + 1) hql
        exact ⟨Reaches_head hm hcmem hrec.1, hrec.2⟩

theorem showFilteredF_subtree (m : List (FPath × EntryNode)) (filter : String)
    (rank : FPath → Nat)
    (hdesc : ∀ kv ∈ m, ∀ c ∈ childrenOf kv.2, rank c < rank kv.1)
    {p q : FPath} (h : Reaches m p q) :
    ∀ fu, rank p < fu →
      ∀ x, x ∈ pathsOf (showFilteredF m filter (rank q + 1) q 0) →
        x ∈ pathsOf (showFilteredF m filter fu p 0) := by
  induction h with
  | refl =>
    intro fu hfu x hx
    rwa [showFilteredF_stable m filter rank hdesc (rank p) p le_rfl (rank p + 1) fu 0
      (by omega) hfu] at hx
  | step hreach hlook hcmem ih =>
    intro fu hfu x hx
    apply ih fu hfu
    rename_i r c cs
    have hcr : rank c < rank r :=
      hdesc _ (lookupA_mem hlook) c (by simpa [childrenOf] using hcmem)
    have hx0 : x ∈ pathsOf (showFilteredF m filter (rank r) c 1) := by
      rw [showFilteredF_stable m filter rank hdesc (rank c) c le_rfl (rank r) (rank c + 1) 1
        (by omega) (by omega)]
      rw [showFilteredF_paths_depth m filter (rank c + 1) c 1 0]
      exact hx
    show x ∈ pathsOf (showFilteredF m filter (rank r + 1) r 0)
    simp only [showFilteredF, hlook, pathsOf, List.map_cons, List.mem_cons]
    right
    rw [List.map_flatten, List.map_map]
    apply List.mem_flatten.2
    refine ⟨pathsOf (showFilteredF m filter (rank r) c 1), ?_, hx0⟩
    apply List.mem_map.2
    exact ⟨c, hcmem, rfl⟩

/-- **C8**: under an extension filter (without lexicographic sort), on every
index admitting an acyclicity rank bounded by the index length (any built
tree), a path is emitted iff it is reachable from the root and is either a
directory (always printed and recursed into) or a file whose extension
exactly equals the filter string. -/
theorem show_filtered_emits_iff (t : FileTree) (filter : String) (rank : FPath → Nat)
    (hdesc : ∀ kv ∈ t.map, ∀ c ∈ childrenOf kv.2, rank c < rank kv.1)
    (hroot : rank t.root ≤ t.map.length) (p : FPath) :
    p ∈ pathsOf (t.show_filtered filter false) ↔
      (Reaches t.map t.root p ∧
        (isDirOpt (lookupA t.map p) = true ∨
          (isFileOpt (lookupA t.map p) = true ∧ pathExt p = some filter))) := by
  unfold FileTree.show_filtered
  simp only [Bool.false_eq_true, if_false]
  constructor
  · intro h
    exact showFilteredF_sound t.map filter (t.map.length + 1) t.root p 0 h
  · rintro ⟨hreach, hdisj⟩
    have hself : p ∈ pathsOf (showFilteredF t.map filter (rank p + 1) p 0) := by
      rcases hdisj with hdir | ⟨hfile, hext⟩
      · match hm : lookupA t.map p with
        | none => rw [hm] at hdir; simp [isDirOpt] at hdir
        | some (.File s) => rw [hm] at hdir; simp [isDirOpt] at hdir
        | some (.Directory cs) => simp [showFilteredF, hm, pathsOf]
      · match hm : lookupA t.map p with
        | none => rw [hm] at hfile; simp [isFileOpt] at hfile
        | some (.Directory cs) => rw [hm] at hfile; simp [isFileOpt] at hfile
        | some (.File s) => simp [showFilteredF, hm, hext, pathsOf]
    exact showFilteredF_subtree t.map filter rank hdesc hreach (t.map.length + 1)
      (by omega) p hself

theorem show_filtered_witness :
    ["R", "a.t"] ∈ pathsOf (sampleTree.show_filtered "t" false) ↔
      (Reaches sampleTree.map sampleTree.root ["R", "a.t"] ∧
        (isDirOpt (lookupA sampleTree.map ["R", "a.t"]) = true ∨
          (isFileOpt (lookupA sampleTree.map ["R", "a.t"]) = true ∧
            pathExt ["R", "a.t"] = some "t"))) :=
  show_filtered_emits_iff sampleTree "t" sampleRank (by decide) (by decide) ["R", "a.t"]
